import Mathlib

/-!
Verification of the Medusa library's convolution kernels, cubic-spline
efficiency model and `PhisSignal` PDF against their specification.

The C++ sources are shallowly embedded: `double` arithmetic is modelled by
real numbers, IEEE divisions whose denominator can vanish (producing a
non-finite value that the surrounding code never filters out) are modelled
by `Option ℝ` with `none` standing for a non-finite result, and state held
in C++ objects is passed explicitly.
-/

open MeasureTheory Set Filter Topology

noncomputable section

namespace Medusa

/-! ### Faddeeva error functions

`medusa/Faddeeva.h` is not part of the sources under verification; per the
specification (§4.1) it provides `erf`/`erfc` with complex-analytic
continuation. -/

/-- Modelled from the spec: `faddeeva::erf` for real arguments, missing from
the sources; the real error function `erf x = (2/√π) ∫ t in 0..x, exp (-t²)`. -/
def erf (x : ℝ) : ℝ := (2 / Real.sqrt Real.pi) * ∫ t in (0:ℝ)..x, Real.exp (-t^2)

/-- Modelled from the spec: `faddeeva::erfc` for real arguments, missing from
the sources; the complementary error function. -/
def erfc (x : ℝ) : ℝ := 1 - erf x

/-- Modelled from the spec: `faddeeva::erf` on complex arguments, missing from
the sources; the analytic continuation of `erf`, written as a path integral
along the segment from `0` to `z`. -/
def cerf (z : ℂ) : ℂ :=
  (2 / Real.sqrt Real.pi : ℝ) * z * ∫ t in (0:ℝ)..(1:ℝ), Complex.exp (-((t : ℂ) * z)^2)

/-- Modelled from the spec: `faddeeva::erfc` on complex arguments, missing from
the sources. -/
def cerfc (z : ℂ) : ℂ := 1 - cerf z

/-! ### `medusa/Functions.h` -/

/-- The constant `sqrt2` (`hydra::math_constants::sqrt2`) used throughout
`Functions.h`. -/
def sqrt2 : ℝ := Real.sqrt 2

/-- Embedding of `medusa::functions::Convoluted_exp_sinhcosh`
(`Functions.h`, lines 120-138): closed-form Gaussian convolution of
`exp(-a*t)*cosh(b*t)` (`tag > 0`) or `exp(-a*t)*sinh(b*t)` (`tag < 0`). -/
def Convoluted_exp_sinhcosh (time a b mu sigma : ℝ) (tag : ℤ) : ℝ :=
  let x : ℝ := (time - mu) / (sigma * sqrt2)
  let z1 : ℝ := (a - b) * sigma / sqrt2
  let z2 : ℝ := (a + b) * sigma / sqrt2
  let faddeeva_z1 : ℝ := Real.exp (z1 * z1 - 2 * z1 * x) * erfc (z1 - x)
  let faddeeva_z2 : ℝ := Real.exp (z2 * z2 - 2 * z2 * x) * erfc (z2 - x)
  if tag > 0 then 0.25 * (faddeeva_z1 + faddeeva_z2)
  else if tag < 0 then 0.25 * (faddeeva_z1 - faddeeva_z2)
  else 0

/-- Embedding of one `cumulative_z` term of
`medusa::functions::Integrated_convoluted_exp_sinhcosh`
(`Functions.h`, lines 180-184).  The C++ divides by `z` unconditionally; in
IEEE arithmetic a vanishing denominator yields a non-finite value (NaN or
±Inf), modelled here by `none`. -/
def cumulative_sinhcosh (x1 x2 z : ℝ) : Option ℝ :=
  if z = 0 then none
  else some ((erf x2 - Real.exp (z * z - 2 * z * x2) * erfc (z - x2) -
      (erf x1 - Real.exp (z * z - 2 * z * x1) * erfc (z - x1))) / z)

/-- Embedding of `medusa::functions::Integrated_convoluted_exp_sinhcosh`
(`Functions.h`, lines 170-193).  `none` models a non-finite IEEE result. -/
def Integrated_convoluted_exp_sinhcosh (time a b mu sigma LowerLimit UpperLimit : ℝ)
    (tag : ℤ) : Option ℝ :=
  let _ := time
  let x1 : ℝ := (LowerLimit - mu) / (sigma * sqrt2)
  let x2 : ℝ := (UpperLimit - mu) / (sigma * sqrt2)
  let z1 : ℝ := (a - b) * sigma / sqrt2
  let z2 : ℝ := (a + b) * sigma / sqrt2
  if tag > 0 then
    Option.map₂ (· + ·) (cumulative_sinhcosh x1 x2 z1) (cumulative_sinhcosh x1 x2 z2)
  else if tag < 0 then
    Option.map₂ (· - ·) (cumulative_sinhcosh x1 x2 z1) (cumulative_sinhcosh x1 x2 z2)
  else some 0

/-- Embedding of one `cumulative_z` numerator of
`medusa::functions::Integrated_convoluted_exp_sincos`
(`Functions.h`, lines 210-214); the division by `z` happens in the
tag branches of the source and is modelled in
`Integrated_convoluted_exp_sincos`. -/
def cumulative_sincos (x1 x2 : ℝ) (z : ℂ) : ℂ :=
  (erf x2 : ℝ) - Complex.exp (z * z - 2 * z * (x2 : ℂ)) * cerfc (z - (x2 : ℂ)) -
    ((erf x1 : ℝ) - Complex.exp (z * z - 2 * z * (x1 : ℂ)) * cerfc (z - (x1 : ℂ)))

/-- Embedding of `medusa::functions::Integrated_convoluted_exp_sincos`
(`Functions.h`, lines 198-225).  The complex divisions `cumulative_z1/z1` and
`cumulative_z2/z2` are unguarded in the source; a vanishing denominator yields
a non-finite IEEE value, modelled by `none`. -/
def Integrated_convoluted_exp_sincos (time a b mu sigma LowerLimit UpperLimit : ℝ)
    (tag : ℤ) : Option ℝ :=
  let _ := time
  let I : ℂ := Complex.I
  let x1 : ℝ := (LowerLimit - mu) / (sigma * sqrt2)
  let x2 : ℝ := (UpperLimit - mu) / (sigma * sqrt2)
  let z1 : ℂ := ⟨a * sigma / sqrt2, -b * sigma / sqrt2⟩
  let z2 : ℂ := ⟨a * sigma / sqrt2, b * sigma / sqrt2⟩
  if tag > 0 then
    if z1 = 0 ∨ z2 = 0 then none
    else some (cumulative_sincos x1 x2 z1 / z1 + cumulative_sincos x1 x2 z2 / z2).re
  else if tag < 0 then
    if z1 = 0 ∨ z2 = 0 then none
    else some ((cumulative_sincos x1 x2 z1 / z1 - cumulative_sincos x1 x2 z2 / z2) / I).re
  else some 0

/-! ### Specification-side convolution (§4.2 of the spec)

The spec describes `Convoluted_exp_sinhcosh` as the Gaussian(μ,σ)-convolution
of the decay law `exp(-a*t)*cosh(b*t)` (resp. `sinh`), the decay law being
supported on positive times. -/

/-- Probability density of the Gaussian resolution model with mean `mu` and
width `sigma`. -/
def gaussianPdf (mu sigma t : ℝ) : ℝ :=
  (1 / (sigma * Real.sqrt (2 * Real.pi))) * Real.exp (-((t - mu)^2) / (2 * sigma^2))

/-- Specification-side definition: the Gaussian(μ,σ)-convolution of a decay
law `h` supported on positive times, evaluated at `time`. -/
def gaussConv (h : ℝ → ℝ) (time mu sigma : ℝ) : ℝ :=
  ∫ s in Ioi (0:ℝ), h s * gaussianPdf mu sigma (time - s)

/-! ### `medusa/phi_s/phis_signal/PhisSignal.h`

The seventeen fit parameters and the five derived coefficient tables cached
inside a `PhisSignal` functor.  `Update_ATCoefficients` (whose implementation
lives in a `details/*.inl` file that is not part of the sources under
verification) writes `A`, `B`, `C`, `D`; `Update_NFactors` writes `N`. -/

structure PhisState where
  par : ℕ → ℝ
  A : ℕ → ℝ
  B : ℕ → ℝ
  C : ℕ → ℝ
  D : ℕ → ℝ
  N : ℕ → ℝ

/-- The compile-time CP constant of `PhisSignal` (`PhisSignal.h`, line 338):
`-1` for the conjugate flavor `B0sbar`, `+1` otherwise. -/
def CP (B0sbar : Bool) : ℝ := if B0sbar then -1 else 1

/-- The literal normalization constant `f = 0.238732414638` of
`PhisSignal::Time_Factor` (`PhisSignal.h`, line 327), a decimal approximation
of `3/(4π)`. -/
def fTimeFactor : ℝ := 0.238732414638

/-- Embedding of `PhisSignal::Update_NFactors` (`PhisSignal.h`, lines
288-311): the ten polarization weights are recomputed only when
`A_par2 = 1 - A_0² - A_perp² ≥ 0`; otherwise the table is left untouched. -/
def Update_NFactors (st : PhisState) : PhisState :=
  let A_par2 : ℝ := 1 - st.par 0 - st.par 1
  if 0 ≤ A_par2 then
    { st with N := fun i =>
        if i = 0 then st.par 0
        else if i = 1 then A_par2
        else if i = 2 then st.par 1
        else if i = 3 then Real.sqrt (st.par 1 * A_par2)
        else if i = 4 then Real.sqrt (st.par 0 * A_par2)
        else if i = 5 then Real.sqrt (st.par 0 * st.par 1)
        else if i = 6 then st.par 2
        else if i = 7 then Real.sqrt (st.par 2 * A_par2)
        else if i = 8 then Real.sqrt (st.par 2 * st.par 1)
        else if i = 9 then Real.sqrt (st.par 2 * st.par 0)
        else st.N i }
  else st

/-- Embedding of `PhisSignal::Time_Factor` (`PhisSignal.h`, lines 315-334). -/
def Time_Factor (st : PhisState) (B0sbar : Bool) (index : ℕ)
    (time chT1 shT1 cT2 sT2 : ℝ) : ℝ :=
  fTimeFactor * Real.exp (-(st.par 3 + 0.65789) * time) *
    (st.A index * chT1 + st.B index * shT1 +
      (st.C index * cT2 + st.D index * sT2) * CP B0sbar)

/-- The weighted ten-term sum accumulated by `PhisSignal::Evaluate`
(`PhisSignal.h`, lines 227-231), for angular factors `F` (the values returned
by the external `parameters::AngularFunctions` provider). -/
def UnnormSum (st : PhisState) (B0sbar : Bool) (time : ℝ) (F : ℕ → ℝ) : ℝ :=
  ∑ i ∈ Finset.range 10,
    F i * st.N i *
      Time_Factor st B0sbar i time
        (Real.cosh (0.5 * time * st.par 4)) (Real.sinh (0.5 * time * st.par 4))
        (Real.cos (time * st.par 5)) (Real.sin (time * st.par 5))

/-- Embedding of the final clamp of `PhisSignal::Evaluate` (`PhisSignal.h`,
lines 245-252) at IEEE semantics: the source comparison `UnnormPDF < 0` is
false when `UnnormPDF` is NaN, so a NaN (modelled by `none`) falls through to
the `else` branch and is returned unchanged, while a finite negative value is
replaced by exactly `0`. -/
def clampNegative (u : Option ℝ) : Option ℝ :=
  match u with
  | none => none
  | some x => if x < 0 then some 0 else some x

/-- Embedding of `PhisSignal::Evaluate` (`PhisSignal.h`, lines 195-253).
`AngularFunctions` stands for the external angular-function provider
(`parameters::AngularFunctions`, not part of the sources under verification;
per spec §4.4 a pure black-box returning the ten shape factors). -/
def Evaluate (AngularFunctions : ℝ → ℝ → ℝ → ℕ → ℝ) (st : PhisState) (B0sbar : Bool)
    (time costheta_h costheta_l phi : ℝ) : ℝ :=
  let A_par2 : ℝ := 1 - st.par 0 - st.par 1
  if A_par2 < 0 then 0
  else
    let F : ℕ → ℝ := AngularFunctions costheta_h costheta_l phi
    let UnnormPDF : ℝ := UnnormSum st B0sbar time F
    if UnnormPDF < 0 then 0 else UnnormPDF

/-- The CP-even part of the ten-term sum of `PhisSignal::Evaluate`: the
contributions carried by the `cosh`/`sinh` time profiles. -/
def evenSum (st : PhisState) (time : ℝ) (F : ℕ → ℝ) : ℝ :=
  ∑ i ∈ Finset.range 10,
    F i * st.N i *
      (fTimeFactor * Real.exp (-(st.par 3 + 0.65789) * time) *
        (st.A i * Real.cosh (0.5 * time * st.par 4) +
          st.B i * Real.sinh (0.5 * time * st.par 4)))

/-- The CP-odd part of the ten-term sum of `PhisSignal::Evaluate`: the
contributions carried by the `cos`/`sin` oscillation profiles, which
`Time_Factor` multiplies by the CP constant. -/
def oddSum (st : PhisState) (time : ℝ) (F : ℕ → ℝ) : ℝ :=
  ∑ i ∈ Finset.range 10,
    F i * st.N i *
      (fTimeFactor * Real.exp (-(st.par 3 + 0.65789) * time) *
        (st.C i * Real.cos (time * st.par 5) +
          st.D i * Real.sin (time * st.par 5)))

/-- A concrete coefficient-cache state for the pure-`A_0` scenario:
`A_0² = 1`, all other amplitude squares zero, `ΔΓ_sd = ΔΓ = ΔM = 0`, and
cached angular-time coefficients `a_0 = 1`, `b_0 = c_0 = d_0 = 0` (the
CP-conserving point `λ_0 = 1` of the opaque coefficient formula set); the
`N` table holds junk that `Update_NFactors` overwrites. -/
def st9 : PhisState :=
  ⟨fun i => if i = 0 then 1 else 0, fun i => if i = 0 then 1 else 0,
    fun _ => 0, fun _ => 0, fun _ => 0, fun _ => 7⟩

/-! ### `medusa/generic/CubicSpline.h`

The constructor (`CubicSpline.h`, lines 92-209) is embedded as a family of
functions of the construction inputs: the number of knots `n`, the knot
vector `knots` (read at indices `0..n-1`) and the spline coefficients `b`
(read at indices `0..n+1`). -/

namespace CubicSpline

/-- The padded knot array `u` of the constructor (`CubicSpline.h`, lines
96-108): the first knot repeated three times, the knots, the last knot
repeated three more times (`u` has length `n+6`). -/
def u (n : ℕ) (knots : ℕ → ℝ) (i : ℕ) : ℝ :=
  if i ≤ 2 then knots 0
  else if i ≤ n + 2 then knots (i - 3)
  else knots (n - 1)

/-- Prefactor `P[i]` (`CubicSpline.h`, line 114). -/
def P (n : ℕ) (knots : ℕ → ℝ) (i : ℕ) : ℝ :=
  (u n knots (i+4) - u n knots (i+1)) * (u n knots (i+4) - u n knots (i+2)) *
    (u n knots (i+4) - u n knots (i+3))

/-- Prefactor `Q[i]` (`CubicSpline.h`, line 115). -/
def Q (n : ℕ) (knots : ℕ → ℝ) (i : ℕ) : ℝ :=
  (u n knots (i+5) - u n knots (i+2)) * (u n knots (i+4) - u n knots (i+2)) *
    (u n knots (i+4) - u n knots (i+3))

/-- Prefactor `R[i]` (`CubicSpline.h`, line 116). -/
def R (n : ℕ) (knots : ℕ → ℝ) (i : ℕ) : ℝ :=
  (u n knots (i+5) - u n knots (i+3)) * (u n knots (i+5) - u n knots (i+2)) *
    (u n knots (i+4) - u n knots (i+3))

/-- Prefactor `S[i]` (`CubicSpline.h`, line 117). -/
def S (n : ℕ) (knots : ℕ → ℝ) (i : ℕ) : ℝ :=
  (u n knots (i+6) - u n knots (i+3)) * (u n knots (i+5) - u n knots (i+3)) *
    (u n knots (i+4) - u n knots (i+3))

/-- Basis-to-monomial constant coefficients `a0[j][i]` (`CubicSpline.h`,
lines 125-131). -/
def a0 (n : ℕ) (knots : ℕ → ℝ) (j i : ℕ) : ℝ :=
  let v := u n knots
  match j with
  | 0 => v (i+4) * v (i+4) * v (i+4) / P n knots i
  | 1 => -v (i+1) * v (i+4) * v (i+4) / P n knots i - v (i+2) * v (i+4) * v (i+5) / Q n knots i
          - v (i+3) * v (i+5) * v (i+5) / R n knots i
  | 2 => v (i+2) * v (i+2) * v (i+4) / Q n knots i + v (i+2) * v (i+3) * v (i+5) / R n knots i
          + v (i+3) * v (i+3) * v (i+6) / S n knots i
  | 3 => -v (i+3) * v (i+3) * v (i+3) / S n knots i
  | _ => 0

/-- Basis-to-monomial linear coefficients `a1[j][i]` (`CubicSpline.h`,
lines 134-144). -/
def a1 (n : ℕ) (knots : ℕ → ℝ) (j i : ℕ) : ℝ :=
  let v := u n knots
  match j with
  | 0 => -3 * v (i+4) * v (i+4) / P n knots i
  | 1 => (2 * v (i+1) * v (i+4) + v (i+4) * v (i+4)) / P n knots i
          + (v (i+2) * v (i+4) + v (i+2) * v (i+5) + v (i+4) * v (i+5)) / Q n knots i
          + (2 * v (i+3) * v (i+5) + v (i+5) * v (i+5)) / R n knots i
  | 2 => -(2 * v (i+2) * v (i+4) + v (i+2) * v (i+2)) / Q n knots i
          - (v (i+2) * v (i+3) + v (i+2) * v (i+5) + v (i+3) * v (i+5)) / R n knots i
          - (2 * v (i+3) * v (i+6) + v (i+3) * v (i+3)) / S n knots i
  | 3 => 3 * v (i+3) * v (i+3) / S n knots i
  | _ => 0

/-- Basis-to-monomial quadratic coefficients `a2[j][i]` (`CubicSpline.h`,
lines 147-157). -/
def a2 (n : ℕ) (knots : ℕ → ℝ) (j i : ℕ) : ℝ :=
  let v := u n knots
  match j with
  | 0 => 3 * v (i+4) / P n knots i
  | 1 => -(2 * v (i+4) + v (i+1)) / P n knots i
          - (v (i+2) + v (i+4) + v (i+5)) / Q n knots i
          - (2 * v (i+5) + v (i+3)) / R n knots i
  | 2 => (2 * v (i+2) + v (i+4)) / Q n knots i
          + (v (i+2) + v (i+5) + v (i+3)) / R n knots i
          + (2 * v (i+3) + v (i+6)) / S n knots i
  | 3 => -3 * v (i+3) / S n knots i
  | _ => 0

/-- Basis-to-monomial cubic coefficients `a3[j][i]` (`CubicSpline.h`,
lines 160-166). -/
def a3 (n : ℕ) (knots : ℕ → ℝ) (j i : ℕ) : ℝ :=
  match j with
  | 0 => -1 / P n knots i
  | 1 => 1 / P n knots i + 1 / Q n knots i + 1 / R n knots i
  | 2 => -1 / Q n knots i - 1 / R n knots i - 1 / S n knots i
  | 3 => 1 / S n knots i
  | _ => 0

/-- The snap-to-zero filter applied to each freshly computed polynomial
coefficient (`CubicSpline.h`, lines 173-176). -/
def snap (x : ℝ) : ℝ := if |x| < 1e-9 then 0 else x

/-- Polynomial coefficients `AS[k][i]` of the inner intervals `i < n-1`
(`CubicSpline.h`, lines 169-176), after the snap-to-zero filter. -/
def ASinner (n : ℕ) (knots b : ℕ → ℝ) (k i : ℕ) : ℝ :=
  let ac : ℕ → ℕ → ℝ :=
    match k with
    | 0 => a0 n knots
    | 1 => a1 n knots
    | 2 => a2 n knots
    | _ => a3 n knots
  snap (b i * ac 0 i + b (i+1) * ac 1 i + b (i+2) * ac 2 i + b (i+3) * ac 3 i)

/-- The value `v = u[nKnots+2]` at which the linear extrapolation is matched
(`CubicSpline.h`, line 181). -/
def vLast (n : ℕ) (knots : ℕ → ℝ) : ℝ := u n knots (n + 2)

/-- Slope `AS[1][nKnots-1]` of the linear extrapolation beyond the last knot
(`CubicSpline.h`, line 190). -/
def AS1last (n : ℕ) (knots b : ℕ → ℝ) : ℝ :=
  ASinner n knots b 1 (n-2) + 2 * ASinner n knots b 2 (n-2) * vLast n knots +
    3 * ASinner n knots b 3 (n-2) * vLast n knots * vLast n knots

/-- Constant term `AS[0][nKnots-1]` of the linear extrapolation beyond the
last knot (`CubicSpline.h`, line 191). -/
def AS0last (n : ℕ) (knots b : ℕ → ℝ) : ℝ :=
  ASinner n knots b 0 (n-2) + ASinner n knots b 1 (n-2) * vLast n knots +
    ASinner n knots b 2 (n-2) * vLast n knots * vLast n knots +
    ASinner n knots b 3 (n-2) * vLast n knots * vLast n knots * vLast n knots -
    AS1last n knots b * vLast n knots

/-- The full polynomial coefficient table `AS[k][i]` after construction:
inner intervals from the B-spline conversion, the last interval overwritten
with the linear extrapolation (`CubicSpline.h`, lines 179-191). -/
def AS (n : ℕ) (knots b : ℕ → ℝ) (k i : ℕ) : ℝ :=
  if i = n - 1 then
    match k with
    | 0 => AS0last n knots b
    | 1 => AS1last n knots b
    | _ => 0
  else ASinner n knots b k i

/-- The `NegativePart` flag computed at construction (`CubicSpline.h`, lines
194-202): set exactly when the extrapolation slope is strictly negative. -/
def NegativePart (n : ℕ) (knots b : ℕ → ℝ) : Bool :=
  if AS1last n knots b < 0 then true else false

/-- The `xNegative` threshold computed at construction (`CubicSpline.h`, line
197).  The source leaves it uninitialized when `NegativePart` is false; it is
modelled as `0` there, and `CSplineEval` only reads it under the
`NegativePart` guard. -/
def xNegative (n : ℕ) (knots b : ℕ → ℝ) : ℝ :=
  if AS1last n knots b < 0 then -AS0last n knots b / AS1last n knots b else 0

/-- The generic linear-scan loop underlying `CubicSpline::findKnot`: starting
from `j = 0`, set `j := i` for each `i < n` (in increasing order) with
`g i ≤ x`. -/
def scanLargest (g : ℕ → ℝ) (x : ℝ) (n : ℕ) : ℕ :=
  (List.range n).foldl (fun j i => if g i ≤ x then i else j) 0

/-- Embedding of `CubicSpline::findKnot` (`CubicSpline.h`, lines 407-416):
a linear scan `for i in 0..nKnots-1: if x >= u[3+i] then j := i`. -/
def findKnot (n : ℕ) (knots : ℕ → ℝ) (x : ℝ) : ℕ :=
  (List.range n).foldl (fun j i => if u n knots (3+i) ≤ x then i else j) 0

/-- Concrete construction inputs (knot vector `{0, 1}`) exhibiting a
zero-slope, negative-constant extrapolation. -/
def cexKnots : ℕ → ℝ := fun i => if i = 0 then 0 else 1

/-- Concrete spline coefficients for `cexKnots`: the inner cubic piece is
`x² - 2x`, whose value at the last knot is `-1` with derivative `0`. -/
def cexB : ℕ → ℝ := fun i => if i = 0 then 0 else if i = 1 then -2/3 else -1

/-- Concrete construction inputs (knot vector `{0, 1}`) whose extrapolation
slope is strictly negative. -/
def negKnots : ℕ → ℝ := fun i => if i = 0 then 0 else 1

/-- Concrete spline coefficients for `negKnots`: the inner piece is `1 - x`,
giving extrapolation slope `-1` and zero crossing at `x = 1`. -/
def negB : ℕ → ℝ :=
  fun i => if i = 0 then 1 else if i = 1 then 2/3 else if i = 2 then 1/3 else 0

/-- Embedding of `CubicSpline::CSplineEval` (`CubicSpline.h`, lines
420-429). -/
def CSplineEval (n : ℕ) (knots b : ℕ → ℝ) (x : ℝ) : ℝ :=
  if xNegative n knots b < x ∧ NegativePart n knots b = true then 1e-3
  else
    let j := findKnot n knots x
    AS n knots b 0 j + AS n knots b 1 j * x + AS n knots b 2 j * x * x +
      AS n knots b 3 j * x * x * x

end CubicSpline

/-! ### Theorems -/

/-- Claim C1 (code bug): `Integrated_convoluted_exp_sinhcosh` and
`Integrated_convoluted_exp_sincos` do not treat the `z = 0` point as a
removable singularity: at `b = a` (hyperbolic form) resp. `a = b = 0`
(trigonometric form) they divide by `z1 = 0` and return a non-finite IEEE
value (modelled by `none`) instead of the finite analytic limit. -/
theorem integrated_forms_divide_by_zero_at_z_eq_zero :
    Integrated_convoluted_exp_sinhcosh 0 1 1 0 1 0 1 1 = none ∧
    Integrated_convoluted_exp_sinhcosh 0 1 1 0 1 0 1 (-1) = none ∧
    Integrated_convoluted_exp_sincos 0 0 0 0 1 0 1 1 = none ∧
    Integrated_convoluted_exp_sincos 0 0 0 0 1 0 1 (-1) = none := by
  have hz : ((1:ℝ) - 1) * 1 / sqrt2 = 0 := by norm_num
  have hz' : (⟨(0:ℝ), (0:ℝ)⟩ : ℂ) = 0 := rfl
  refine ⟨?_, ?_, ?_, ?_⟩ <;>
    simp [Integrated_convoluted_exp_sinhcosh, Integrated_convoluted_exp_sincos,
      cumulative_sinhcosh, hz, hz']

/-- Claim C10: the value of `Integrated_convoluted_exp_sinhcosh` and of
`Integrated_convoluted_exp_sincos` does not depend on the `time` argument:
the definite integral is a function of the window `[LowerLimit, UpperLimit]`
only. -/
theorem integrated_forms_independent_of_time
    (t t' a b mu sigma LowerLimit UpperLimit : ℝ) (tag : ℤ) :
    Integrated_convoluted_exp_sinhcosh t a b mu sigma LowerLimit UpperLimit tag =
      Integrated_convoluted_exp_sinhcosh t' a b mu sigma LowerLimit UpperLimit tag ∧
    Integrated_convoluted_exp_sincos t a b mu sigma LowerLimit UpperLimit tag =
      Integrated_convoluted_exp_sincos t' a b mu sigma LowerLimit UpperLimit tag :=
  ⟨rfl, rfl⟩

/-- Claim C2: whenever `A_par² = 1 - A_0² - A_perp² < 0`, `PhisSignal::Evaluate`
returns exactly `0`, for every flavor, every input tuple and every
angular-function provider (hence without reading the angular functions or the
time factors). -/
theorem evaluate_zero_of_unphysical_amplitudes
    (AngularFunctions : ℝ → ℝ → ℝ → ℕ → ℝ) (st : PhisState) (B0sbar : Bool)
    (time costheta_h costheta_l phi : ℝ)
    (h : 1 - st.par 0 - st.par 1 < 0) :
    Evaluate AngularFunctions st B0sbar time costheta_h costheta_l phi = 0 := by
  simp only [Evaluate]
  rw [if_pos h]

/-- Witness for claim C2 at a concrete unphysical parameter point
(`A_0² = A_perp² = 2`). -/
theorem evaluate_zero_of_unphysical_amplitudes_witness :
    (1 : ℝ) - 2 - 2 < 0 ∧
    Evaluate (fun _ _ _ _ => 1)
      ⟨fun _ => 2, fun _ => 0, fun _ => 0, fun _ => 0, fun _ => 0, fun _ => 0⟩
      false 1 1 1 1 = 0 :=
  ⟨by norm_num,
    evaluate_zero_of_unphysical_amplitudes _ _ _ _ _ _ _ (by norm_num)⟩

/-- Claim C3: in the physical region the result of `PhisSignal::Evaluate` is
the clamp of the ten-term sum — a finite negative sum yields exactly `0`, a
nonnegative sum is returned unchanged, so the result is never negative — and
the clamping step propagates a NaN (modelled by `none`) unchanged because the
IEEE comparison `UnnormPDF < 0` is false for NaN. -/
theorem evaluate_clamps_negative_and_propagates_nan :
    (∀ (AngularFunctions : ℝ → ℝ → ℝ → ℕ → ℝ) (st : PhisState) (B0sbar : Bool)
        (time costheta_h costheta_l phi : ℝ),
      0 ≤ Evaluate AngularFunctions st B0sbar time costheta_h costheta_l phi) ∧
    (∀ (AngularFunctions : ℝ → ℝ → ℝ → ℕ → ℝ) (st : PhisState) (B0sbar : Bool)
        (time costheta_h costheta_l phi : ℝ),
      0 ≤ 1 - st.par 0 - st.par 1 →
      some (Evaluate AngularFunctions st B0sbar time costheta_h costheta_l phi) =
        clampNegative
          (some (UnnormSum st B0sbar time (AngularFunctions costheta_h costheta_l phi)))) ∧
    clampNegative none = none ∧
    (∀ x : ℝ, x < 0 → clampNegative (some x) = some 0) ∧
    (∀ x : ℝ, 0 ≤ x → clampNegative (some x) = some x) := by
  refine ⟨?_, ?_, rfl, ?_, ?_⟩
  · intro AFn st b t ch cl ph
    simp only [Evaluate]
    split
    · exact le_refl 0
    · split
      · exact le_refl 0
      · exact le_of_not_lt (by assumption)
  · intro AFn st b t ch cl ph h
    simp only [Evaluate, clampNegative]
    rw [if_neg (not_lt.mpr h)]
    split <;> rfl
  · intro x hx
    simp only [clampNegative]
    rw [if_pos hx]
  · intro x hx
    simp only [clampNegative]
    rw [if_neg (not_lt.mpr hx)]

/-- Witness for claim C3 at concrete inputs: the physical-region clamp
identity at an all-zero state, and the clamp of the finite negative value
`-1`. -/
theorem evaluate_clamps_negative_and_propagates_nan_witness :
    ((0:ℝ) ≤ 1 - 0 - 0 ∧
      some (Evaluate (fun _ _ _ _ => 1)
        ⟨fun _ => 0, fun _ => 0, fun _ => 0, fun _ => 0, fun _ => 0, fun _ => 0⟩
        false 1 1 1 1) =
        clampNegative (some (UnnormSum
          ⟨fun _ => 0, fun _ => 0, fun _ => 0, fun _ => 0, fun _ => 0, fun _ => 0⟩
          false 1 (fun _ => 1)))) ∧
    ((-1 : ℝ) < 0 ∧ clampNegative (some (-1 : ℝ)) = some 0) :=
  ⟨⟨by norm_num,
    evaluate_clamps_negative_and_propagates_nan.2.1 _ _ _ _ _ _ _ (by norm_num)⟩,
   ⟨by norm_num,
    evaluate_clamps_negative_and_propagates_nan.2.2.2.1 (-1) (by norm_num)⟩⟩

/-- Claim C7: `Update_NFactors` is atomic on failure of its precondition:
when `A_par² = 1 - A_0² - A_perp² < 0` the ten polarization weights are left
exactly as they were, and when `A_par² ≥ 0` all ten are recomputed from
`{A_0², A_perp², A_S²}`. -/
theorem update_nfactors_atomic (st : PhisState) :
    (1 - st.par 0 - st.par 1 < 0 → (Update_NFactors st).N = st.N) ∧
    (0 ≤ 1 - st.par 0 - st.par 1 →
      (Update_NFactors st).N 0 = st.par 0 ∧
      (Update_NFactors st).N 1 = 1 - st.par 0 - st.par 1 ∧
      (Update_NFactors st).N 2 = st.par 1 ∧
      (Update_NFactors st).N 3 = Real.sqrt (st.par 1 * (1 - st.par 0 - st.par 1)) ∧
      (Update_NFactors st).N 4 = Real.sqrt (st.par 0 * (1 - st.par 0 - st.par 1)) ∧
      (Update_NFactors st).N 5 = Real.sqrt (st.par 0 * st.par 1) ∧
      (Update_NFactors st).N 6 = st.par 2 ∧
      (Update_NFactors st).N 7 = Real.sqrt (st.par 2 * (1 - st.par 0 - st.par 1)) ∧
      (Update_NFactors st).N 8 = Real.sqrt (st.par 2 * st.par 1) ∧
      (Update_NFactors st).N 9 = Real.sqrt (st.par 2 * st.par 0)) := by
  constructor
  · intro h
    simp only [Update_NFactors]
    rw [if_neg (not_le.mpr h)]
  · intro h
    simp only [Update_NFactors]
    rw [if_pos h]
    norm_num

/-- Witness for claim C7: at `A_0² = A_perp² = 2` the weights are untouched;
at the all-zero parameter point the ten weights take the recomputed values. -/
theorem update_nfactors_atomic_witness :
    ((1:ℝ) - 2 - 2 < 0 ∧
      (Update_NFactors
        ⟨fun _ => 2, fun _ => 0, fun _ => 0, fun _ => 0, fun _ => 0, fun _ => 7⟩).N =
        (⟨fun _ => 2, fun _ => 0, fun _ => 0, fun _ => 0, fun _ => 0, fun _ => 7⟩ :
          PhisState).N) ∧
    ((0:ℝ) ≤ 1 - 0 - 0 ∧
      (Update_NFactors
        ⟨fun _ => 0, fun _ => 0, fun _ => 0, fun _ => 0, fun _ => 0, fun _ => 7⟩).N 1 =
        1 - 0 - 0) :=
  ⟨⟨by norm_num, (update_nfactors_atomic _).1 (by norm_num)⟩,
   ⟨by norm_num, ((update_nfactors_atomic _).2 (by norm_num)).2.1⟩⟩

/-- Claim C8: for identical parameter vectors, derived coefficients and
inputs, the two flavor instantiations differ only in the sign of the CP-odd
contribution: each time factor is the CP-even part plus `CP` times the
`c_k·cos + d_k·sin` part with `CP = +1` for `B0` and `CP = -1` for `B0sbar`,
the ten-term sum decomposes accordingly, and in the physical region
`Evaluate` is the clamp of `evenSum + CP · oddSum`. -/
theorem evaluate_flavors_differ_only_in_cp_odd_sign :
    (∀ (st : PhisState) (B0sbar : Bool) (i : ℕ) (time chT1 shT1 cT2 sT2 : ℝ),
      Time_Factor st B0sbar i time chT1 shT1 cT2 sT2 =
        fTimeFactor * Real.exp (-(st.par 3 + 0.65789) * time) *
            (st.A i * chT1 + st.B i * shT1) +
          CP B0sbar *
            (fTimeFactor * Real.exp (-(st.par 3 + 0.65789) * time) *
              (st.C i * cT2 + st.D i * sT2))) ∧
    (∀ (st : PhisState) (B0sbar : Bool) (time : ℝ) (F : ℕ → ℝ),
      UnnormSum st B0sbar time F = evenSum st time F + CP B0sbar * oddSum st time F) ∧
    (∀ (AngularFunctions : ℝ → ℝ → ℝ → ℕ → ℝ) (st : PhisState) (B0sbar : Bool)
        (time costheta_h costheta_l phi : ℝ),
      0 ≤ 1 - st.par 0 - st.par 1 →
      Evaluate AngularFunctions st B0sbar time costheta_h costheta_l phi =
        max 0 (evenSum st time (AngularFunctions costheta_h costheta_l phi) +
          CP B0sbar * oddSum st time (AngularFunctions costheta_h costheta_l phi))) := by
  have hTF : ∀ (st : PhisState) (B0sbar : Bool) (i : ℕ) (time chT1 shT1 cT2 sT2 : ℝ),
      Time_Factor st B0sbar i time chT1 shT1 cT2 sT2 =
        fTimeFactor * Real.exp (-(st.par 3 + 0.65789) * time) *
            (st.A i * chT1 + st.B i * shT1) +
          CP B0sbar *
            (fTimeFactor * Real.exp (-(st.par 3 + 0.65789) * time) *
              (st.C i * cT2 + st.D i * sT2)) := by
    intro st b i t ch sh cT sT
    simp only [Time_Factor]
    ring
  have hSum : ∀ (st : PhisState) (B0sbar : Bool) (time : ℝ) (F : ℕ → ℝ),
      UnnormSum st B0sbar time F = evenSum st time F + CP B0sbar * oddSum st time F := by
    intro st b t F
    simp only [UnnormSum, evenSum, oddSum, Finset.mul_sum, ← Finset.sum_add_distrib]
    refine Finset.sum_congr rfl fun i _ => ?_
    rw [hTF]
    ring
  refine ⟨hTF, hSum, ?_⟩
  intro AFn st b t ch cl ph h
  simp only [Evaluate]
  rw [if_neg (not_lt.mpr h), hSum]
  rcases lt_or_le (evenSum st t (AFn ch cl ph) + CP b * oddSum st t (AFn ch cl ph)) 0 with
    hlt | hle
  · rw [if_pos hlt, max_eq_left hlt.le]
  · rw [if_neg (not_lt.mpr hle), max_eq_right hle]

/-- Witness for claim C8: the physical-region decomposition of `Evaluate`
into even and CP-weighted odd parts at the all-zero state. -/
theorem evaluate_flavors_differ_only_in_cp_odd_sign_witness :
    (0:ℝ) ≤ 1 - 0 - 0 ∧
    Evaluate (fun _ _ _ _ => 1)
        ⟨fun _ => 0, fun _ => 0, fun _ => 0, fun _ => 0, fun _ => 0, fun _ => 0⟩
        true 1 1 1 1 =
      max 0 (evenSum
          ⟨fun _ => 0, fun _ => 0, fun _ => 0, fun _ => 0, fun _ => 0, fun _ => 0⟩ 1
          (fun _ => 1) +
        CP true * oddSum
          ⟨fun _ => 0, fun _ => 0, fun _ => 0, fun _ => 0, fun _ => 0, fun _ => 0⟩ 1
          (fun _ => 1)) :=
  ⟨by norm_num,
    evaluate_flavors_differ_only_in_cp_odd_sign.2.2 _ _ _ _ _ _ _ (by norm_num)⟩

namespace CubicSpline

lemma scanLargest_succ (g : ℕ → ℝ) (x : ℝ) (n : ℕ) :
    scanLargest g x (n+1) = if g n ≤ x then n else scanLargest g x n := by
  simp [scanLargest, List.range_succ]

lemma scanLargest_ge (g : ℕ → ℝ) (x : ℝ) :
    ∀ n i, i < n → g i ≤ x → i ≤ scanLargest g x n := by
  intro n
  induction n with
  | zero => intro i hi _; omega
  | succ n ih =>
    intro i hi hgi
    rw [scanLargest_succ]
    by_cases h : g n ≤ x
    · rw [if_pos h]; omega
    · rw [if_neg h]
      have hne : i ≠ n := fun he => h (he ▸ hgi)
      exact ih i (by omega) hgi

lemma scanLargest_sat (g : ℕ → ℝ) (x : ℝ) :
    ∀ n, (∃ i, i < n ∧ g i ≤ x) →
      scanLargest g x n < n ∧ g (scanLargest g x n) ≤ x := by
  intro n
  induction n with
  | zero => intro ⟨i, hi, _⟩; omega
  | succ n ih =>
    intro ⟨i, hi, hgi⟩
    rw [scanLargest_succ]
    by_cases hgn : g n ≤ x
    · rw [if_pos hgn]
      exact ⟨Nat.lt_succ_self n, hgn⟩
    · rw [if_neg hgn]
      have hne : i ≠ n := fun he => hgn (he ▸ hgi)
      have h' := ih ⟨i, by omega, hgi⟩
      exact ⟨Nat.lt_succ_of_lt h'.1, h'.2⟩

lemma findKnot_eq_scanLargest (n : ℕ) (knots : ℕ → ℝ) (x : ℝ) :
    findKnot n knots x = scanLargest (fun i => u n knots (3+i)) x n := rfl

end CubicSpline

/-- Claim C4: `CSplineEval x` returns exactly `1e-3` when `NegativePart` is
set and `x > xNegative`; otherwise it evaluates the cubic
`AS[0][j] + AS[1][j]·x + AS[2][j]·x² + AS[3][j]·x³` at the interval
`j = findKnot x`, and `findKnot` returns the largest index `i < nKnots` with
`u[3+i] ≤ x` whenever one exists (ties broken toward the higher index by the
scan order). -/
theorem cspline_eval_spec (n : ℕ) (knots b : ℕ → ℝ) (x : ℝ) :
    (CubicSpline.NegativePart n knots b = true ∧ CubicSpline.xNegative n knots b < x →
      CubicSpline.CSplineEval n knots b x = 1e-3) ∧
    (¬(CubicSpline.NegativePart n knots b = true ∧ CubicSpline.xNegative n knots b < x) →
      CubicSpline.CSplineEval n knots b x =
        CubicSpline.AS n knots b 0 (CubicSpline.findKnot n knots x) +
        CubicSpline.AS n knots b 1 (CubicSpline.findKnot n knots x) * x +
        CubicSpline.AS n knots b 2 (CubicSpline.findKnot n knots x) * x * x +
        CubicSpline.AS n knots b 3 (CubicSpline.findKnot n knots x) * x * x * x) ∧
    (∀ i, i < n → CubicSpline.u n knots (3+i) ≤ x → i ≤ CubicSpline.findKnot n knots x) ∧
    ((∃ i, i < n ∧ CubicSpline.u n knots (3+i) ≤ x) →
      CubicSpline.findKnot n knots x < n ∧
        CubicSpline.u n knots (3 + CubicSpline.findKnot n knots x) ≤ x) := by
  refine ⟨?_, ?_, ?_, ?_⟩
  · intro h
    simp only [CubicSpline.CSplineEval]
    rw [if_pos ⟨h.2, h.1⟩]
  · intro h
    simp only [CubicSpline.CSplineEval]
    rw [if_neg (fun hc => h ⟨hc.2, hc.1⟩)]
  · intro i hi hui
    rw [CubicSpline.findKnot_eq_scanLargest]
    exact CubicSpline.scanLargest_ge _ x n i hi hui
  · intro h
    rw [CubicSpline.findKnot_eq_scanLargest]
    exact CubicSpline.scanLargest_sat _ x n h

/-- Witness for claim C4: on the two-knot spline with knots `{0, 1}` and
`x = 1/2`, the knot search selects a valid interval whose knot is below
`x`. -/
theorem cspline_eval_spec_witness :
    (∃ i, i < 2 ∧ CubicSpline.u 2 CubicSpline.cexKnots (3+i) ≤ (1/2 : ℝ)) ∧
    (CubicSpline.findKnot 2 CubicSpline.cexKnots (1/2) < 2 ∧
      CubicSpline.u 2 CubicSpline.cexKnots
        (3 + CubicSpline.findKnot 2 CubicSpline.cexKnots (1/2)) ≤ (1/2 : ℝ)) :=
  have hex : ∃ i, i < 2 ∧ CubicSpline.u 2 CubicSpline.cexKnots (3+i) ≤ (1/2 : ℝ) :=
    ⟨0, by norm_num [CubicSpline.u, CubicSpline.cexKnots]⟩
  ⟨hex, (cspline_eval_spec 2 CubicSpline.cexKnots CubicSpline.cexB (1/2)).2.2.2 hex⟩

/-- Claim C6 counterexample: for the spline built from knots `{0, 1}` and
coefficients `{0, -2/3, -1, -1}` the inner cubic piece is `x² - 2x`, so the
forced linear extrapolation is the constant `-1` — eventually (indeed
everywhere) negative — yet the constructor leaves `NegativePart = false`
because it only tests the slope `AS[1][nKnots-1] < 0`; `CSplineEval` then
returns the negative value `-1` beyond the last knot. -/
theorem negativepart_flag_counterexample :
    CubicSpline.NegativePart 2 CubicSpline.cexKnots CubicSpline.cexB = false ∧
    CubicSpline.AS1last 2 CubicSpline.cexKnots CubicSpline.cexB = 0 ∧
    CubicSpline.AS0last 2 CubicSpline.cexKnots CubicSpline.cexB = -1 ∧
    CubicSpline.CSplineEval 2 CubicSpline.cexKnots CubicSpline.cexB 1000 = -1 := by
  have hAS1 : CubicSpline.AS1last 2 CubicSpline.cexKnots CubicSpline.cexB = 0 := by
    norm_num [CubicSpline.AS1last, CubicSpline.ASinner, CubicSpline.a1, CubicSpline.a2,
      CubicSpline.a3, CubicSpline.P, CubicSpline.Q, CubicSpline.R, CubicSpline.S,
      CubicSpline.u, CubicSpline.snap, CubicSpline.vLast, CubicSpline.cexKnots,
      CubicSpline.cexB]
  have hAS0 : CubicSpline.AS0last 2 CubicSpline.cexKnots CubicSpline.cexB = -1 := by
    norm_num [CubicSpline.AS0last, hAS1, CubicSpline.ASinner, CubicSpline.a0,
      CubicSpline.a1, CubicSpline.a2, CubicSpline.a3, CubicSpline.P, CubicSpline.Q,
      CubicSpline.R, CubicSpline.S, CubicSpline.u, CubicSpline.snap, CubicSpline.vLast,
      CubicSpline.cexKnots, CubicSpline.cexB]
  have hNeg : CubicSpline.NegativePart 2 CubicSpline.cexKnots CubicSpline.cexB = false := by
    rw [CubicSpline.NegativePart, hAS1]
    norm_num
  refine ⟨hNeg, hAS1, hAS0, ?_⟩
  simp only [CubicSpline.CSplineEval]
  rw [if_neg (by simp [hNeg])]
  have hfk : CubicSpline.findKnot 2 CubicSpline.cexKnots 1000 = 1 := by
    norm_num [CubicSpline.findKnot, List.range_succ, CubicSpline.u, CubicSpline.cexKnots]
  rw [hfk]
  simp only [CubicSpline.AS]
  norm_num [hAS0, hAS1]

/-- Claim C6 (amended): after construction, `NegativePart` is true iff the
slope `AS[1][nKnots-1]` of the linear extrapolation is strictly negative
(a zero-slope extrapolation with negative constant value is not flagged),
and when `NegativePart` is true, `xNegative` is the exact zero crossing of
the linear piece, beyond which that piece is strictly negative. -/
theorem negativepart_flag_amended (n : ℕ) (knots b : ℕ → ℝ) :
    (CubicSpline.NegativePart n knots b = true ↔ CubicSpline.AS1last n knots b < 0) ∧
    (CubicSpline.NegativePart n knots b = true →
      CubicSpline.AS0last n knots b +
          CubicSpline.AS1last n knots b * CubicSpline.xNegative n knots b = 0 ∧
      ∀ x : ℝ, CubicSpline.xNegative n knots b < x →
        CubicSpline.AS0last n knots b + CubicSpline.AS1last n knots b * x < 0) := by
  have hiff : CubicSpline.NegativePart n knots b = true ↔
      CubicSpline.AS1last n knots b < 0 := by
    simp only [CubicSpline.NegativePart]
    split <;> simp_all
  refine ⟨hiff, fun h => ?_⟩
  have hlt : CubicSpline.AS1last n knots b < 0 := hiff.mp h
  have hne : CubicSpline.AS1last n knots b ≠ 0 := ne_of_lt hlt
  have hxneg : CubicSpline.xNegative n knots b =
      -CubicSpline.AS0last n knots b / CubicSpline.AS1last n knots b := by
    simp only [CubicSpline.xNegative]
    rw [if_pos hlt]
  have hzero : CubicSpline.AS0last n knots b +
      CubicSpline.AS1last n knots b * CubicSpline.xNegative n knots b = 0 := by
    rw [hxneg]
    field_simp
    ring
  refine ⟨hzero, fun x hx => ?_⟩
  have h1 : CubicSpline.AS1last n knots b * x <
      CubicSpline.AS1last n knots b * CubicSpline.xNegative n knots b :=
    mul_lt_mul_of_neg_left hx hlt
  linarith

/-- Witness for claim C6 at a concrete negative-slope spline (knots `{0, 1}`,
inner piece `1 - x`): the flag is set and `xNegative` is the exact zero
crossing of the extrapolated line. -/
theorem negativepart_flag_amended_witness :
    CubicSpline.NegativePart 2 CubicSpline.negKnots CubicSpline.negB = true ∧
    CubicSpline.AS0last 2 CubicSpline.negKnots CubicSpline.negB +
      CubicSpline.AS1last 2 CubicSpline.negKnots CubicSpline.negB *
        CubicSpline.xNegative 2 CubicSpline.negKnots CubicSpline.negB = 0 :=
  have hneg : CubicSpline.NegativePart 2 CubicSpline.negKnots CubicSpline.negB = true := by
    have hAS1 : CubicSpline.AS1last 2 CubicSpline.negKnots CubicSpline.negB = -1 := by
      norm_num [CubicSpline.AS1last, CubicSpline.ASinner, CubicSpline.a1, CubicSpline.a2,
        CubicSpline.a3, CubicSpline.P, CubicSpline.Q, CubicSpline.R, CubicSpline.S,
        CubicSpline.u, CubicSpline.snap, CubicSpline.vLast, CubicSpline.negKnots,
        CubicSpline.negB]
    rw [CubicSpline.NegativePart, hAS1]
    norm_num
  ⟨hneg, ((negativepart_flag_amended 2 CubicSpline.negKnots CubicSpline.negB).2 hneg).1⟩

lemma ite_neg_eq_max (x : ℝ) : (if x < 0 then 0 else x) = max 0 x := by
  rcases lt_or_le x 0 with h | h
  · rw [if_pos h, max_eq_left h.le]
  · rw [if_neg (not_lt.mpr h), max_eq_right h]

/-- Helper: reduction of `PhisSignal::Evaluate` in the pure-`A_0`
configuration (`A_0² = 1`, `A_perp² = A_S² = 0`, `ΔΓ = ΔM = 0`) after
`Update_NFactors`: only the `k = 0` term survives, with the empirical offset
`0.65789` in the exponent and the CP-weighted `c_0` coefficient through
`cos 0 = 1`. -/
lemma eval_pure_pol_core (AngularFunctions : ℝ → ℝ → ℝ → ℕ → ℝ) (st : PhisState)
    (B0sbar : Bool) (time costheta_h costheta_l phi : ℝ)
    (h0 : st.par 0 = 1) (h1 : st.par 1 = 0) (h2 : st.par 2 = 0)
    (h4 : st.par 4 = 0) (h5 : st.par 5 = 0) :
    Evaluate AngularFunctions (Update_NFactors st) B0sbar time costheta_h costheta_l phi =
      max 0 (AngularFunctions costheta_h costheta_l phi 0 * fTimeFactor *
        Real.exp (-(st.par 3 + 0.65789) * time) * (st.A 0 + CP B0sbar * st.C 0)) := by
  have hA : (1:ℝ) - st.par 0 - st.par 1 = 0 := by rw [h0, h1]; norm_num
  have hupd : Update_NFactors st =
      { st with N := fun i =>
          if i = 0 then st.par 0
          else if i = 1 then 1 - st.par 0 - st.par 1
          else if i = 2 then st.par 1
          else if i = 3 then Real.sqrt (st.par 1 * (1 - st.par 0 - st.par 1))
          else if i = 4 then Real.sqrt (st.par 0 * (1 - st.par 0 - st.par 1))
          else if i = 5 then Real.sqrt (st.par 0 * st.par 1)
          else if i = 6 then st.par 2
          else if i = 7 then Real.sqrt (st.par 2 * (1 - st.par 0 - st.par 1))
          else if i = 8 then Real.sqrt (st.par 2 * st.par 1)
          else if i = 9 then Real.sqrt (st.par 2 * st.par 0)
          else st.N i } := by
    simp only [Update_NFactors]
    rw [if_pos (le_of_eq hA.symm)]
  rw [hupd]
  simp only [Evaluate]
  rw [if_neg (by rw [hA]; exact lt_irrefl 0)]
  have hsum : UnnormSum
      { st with N := fun i =>
          if i = 0 then st.par 0
          else if i = 1 then 1 - st.par 0 - st.par 1
          else if i = 2 then st.par 1
          else if i = 3 then Real.sqrt (st.par 1 * (1 - st.par 0 - st.par 1))
          else if i = 4 then Real.sqrt (st.par 0 * (1 - st.par 0 - st.par 1))
          else if i = 5 then Real.sqrt (st.par 0 * st.par 1)
          else if i = 6 then st.par 2
          else if i = 7 then Real.sqrt (st.par 2 * (1 - st.par 0 - st.par 1))
          else if i = 8 then Real.sqrt (st.par 2 * st.par 1)
          else if i = 9 then Real.sqrt (st.par 2 * st.par 0)
          else st.N i }
      B0sbar time (AngularFunctions costheta_h costheta_l phi) =
      AngularFunctions costheta_h costheta_l phi 0 * fTimeFactor *
        Real.exp (-(st.par 3 + 0.65789) * time) * (st.A 0 + CP B0sbar * st.C 0) := by
    simp only [UnnormSum, Finset.sum_range_succ, Finset.sum_range_zero, Time_Factor]
    rw [h0, h1, h2, h4, h5]
    norm_num [Real.sqrt_zero, Real.cosh_zero, Real.sinh_zero, Real.cos_zero,
      Real.sin_zero]
    ring
  rw [hsum, ite_neg_eq_max]

/-- Claim C9 counterexample: in the pure-`A_0` configuration with
`ΔΓ_sd = 0`, `a_0 = 1`, `c_0 = 0` and unit angular factor, at `t = 1` the
code evaluates to `0.238732414638 · exp(-0.65789)` — the empirical offset
`0.65789` remains in the exponent — which differs from the claimed
`f₀ · exp(-ΔΓ_sd·t) · N₀ · F₀ = 3/(4π)`. -/
theorem evaluate_pure_polarization_counterexample :
    Evaluate (fun _ _ _ _ => 1) (Update_NFactors st9) false 1 0 0 0 ≠
      3 / (4 * Real.pi) * Real.exp (-(st9.par 3) * 1) * 1 * 1 := by
  have hval : Evaluate (fun _ _ _ _ => 1) (Update_NFactors st9) false 1 0 0 0 =
      fTimeFactor * Real.exp (-(0.65789 : ℝ)) := by
    rw [eval_pure_pol_core (fun _ _ _ _ => 1) st9 false 1 0 0 0
      (by norm_num [st9]) (by norm_num [st9]) (by norm_num [st9])
      (by norm_num [st9]) (by norm_num [st9])]
    have hf : (0:ℝ) < fTimeFactor := by norm_num [fTimeFactor]
    have hinner : (fun (_ _ _ : ℝ) (_ : ℕ) => (1:ℝ)) 0 0 0 0 * fTimeFactor *
        Real.exp (-(st9.par 3 + 0.65789) * 1) * (st9.A 0 + CP false * st9.C 0) =
        fTimeFactor * Real.exp (-(0.65789:ℝ)) := by
      norm_num [st9, CP]
    rw [hinner, max_eq_right (mul_pos hf (Real.exp_pos _)).le]
  rw [hval]
  have hst : st9.par 3 = 0 := by norm_num [st9]
  rw [hst]
  have hexp : Real.exp (-(0.65789:ℝ)) ≤ (1.65789 : ℝ)⁻¹ := by
    have h1 : (1.65789:ℝ) ≤ Real.exp 0.65789 := by
      have := Real.add_one_le_exp (0.65789:ℝ)
      linarith
    rw [Real.exp_neg]
    exact inv_anti₀ (by norm_num) h1
  have hlhs : fTimeFactor * Real.exp (-(0.65789:ℝ)) < 0.145 := by
    have hf : (0:ℝ) < fTimeFactor := by norm_num [fTimeFactor]
    have := mul_le_mul_of_nonneg_left hexp hf.le
    have hnum : fTimeFactor * (1.65789 : ℝ)⁻¹ < 0.145 := by
      norm_num [fTimeFactor]
    linarith
  have hpi : Real.pi < 3.15 := Real.pi_lt_d2
  have hpos : (0:ℝ) < 4 * Real.pi := by positivity
  have hrhs : (0.238 : ℝ) < 3 / (4 * Real.pi) := by
    rw [lt_div_iff₀ hpos]
    nlinarith [Real.pi_pos]
  have : fTimeFactor * Real.exp (-(0.65789:ℝ)) < 3 / (4 * Real.pi) := by linarith
  have hne : fTimeFactor * Real.exp (-(0.65789:ℝ)) ≠ 3 / (4 * Real.pi) := ne_of_lt this
  simpa using hne

/-- Claim C9 (amended): with `ΔΓ = 0`, `ΔM = 0` and only `A_0² = 1` (all
other amplitude squares zero), `Evaluate(t, angles)` reduces to the clamp of
`F₀(angles) · f · exp(-(ΔΓ_sd + 0.65789)·t) · (a₀ + CP·c₀)` with `f` the
source literal `0.238732414638` (≈ 3/(4π)) and `N₀ = 1`: the `sinh` and
`sin` oscillation terms vanish, but the exponent keeps the empirical offset
`0.65789` and the `cos`-term coefficient `c₀` still contributes through
`cos(0) = 1`. -/
theorem evaluate_pure_polarization_amended
    (AngularFunctions : ℝ → ℝ → ℝ → ℕ → ℝ) (st : PhisState) (B0sbar : Bool)
    (time costheta_h costheta_l phi : ℝ)
    (h0 : st.par 0 = 1) (h1 : st.par 1 = 0) (h2 : st.par 2 = 0)
    (h4 : st.par 4 = 0) (h5 : st.par 5 = 0) :
    Evaluate AngularFunctions (Update_NFactors st) B0sbar time costheta_h costheta_l phi =
      max 0 (AngularFunctions costheta_h costheta_l phi 0 * fTimeFactor *
        Real.exp (-(st.par 3 + 0.65789) * time) * (st.A 0 + CP B0sbar * st.C 0)) :=
  eval_pure_pol_core AngularFunctions st B0sbar time costheta_h costheta_l phi
    h0 h1 h2 h4 h5

/-- Witness for the amended claim C9 at the concrete pure-`A_0` state. -/
theorem evaluate_pure_polarization_amended_witness :
    st9.par 0 = 1 ∧
    Evaluate (fun _ _ _ _ => 1) (Update_NFactors st9) true 2 0 0 0 =
      max 0 ((fun (_ _ _ : ℝ) (_ : ℕ) => (1:ℝ)) 0 0 0 0 * fTimeFactor *
        Real.exp (-(st9.par 3 + 0.65789) * 2) * (st9.A 0 + CP true * st9.C 0)) :=
  ⟨by norm_num [st9],
    evaluate_pure_polarization_amended (fun _ _ _ _ => 1) st9 true 2 0 0 0
      (by norm_num [st9]) (by norm_num [st9]) (by norm_num [st9])
      (by norm_num [st9]) (by norm_num [st9])⟩

lemma continuous_exp_neg_sq : Continuous fun t : ℝ => Real.exp (-t^2) :=
  Real.continuous_exp.comp (continuous_pow 2).neg

lemma erf_hasDerivAt (x : ℝ) :
    HasDerivAt erf ((2 / Real.sqrt Real.pi) * Real.exp (-x^2)) x := by
  have h := (continuous_exp_neg_sq.integral_hasStrictDerivAt 0 x).hasDerivAt
  exact h.const_mul (2 / Real.sqrt Real.pi)

lemma integrableOn_exp_neg_sq : IntegrableOn (fun t : ℝ => Real.exp (-t^2)) (Ioi 0) := by
  have h := integrable_exp_neg_mul_sq (b := 1) one_pos
  simp only [neg_mul, one_mul] at h
  exact h.integrableOn

lemma tendsto_erf_atTop : Tendsto erf atTop (𝓝 1) := by
  have h1 : Tendsto (fun x => ∫ t in (0:ℝ)..x, Real.exp (-t^2)) atTop
      (𝓝 (∫ t in Ioi (0:ℝ), Real.exp (-t^2))) :=
    intervalIntegral_tendsto_integral_Ioi 0 integrableOn_exp_neg_sq tendsto_id
  have h2 : ∫ t in Ioi (0:ℝ), Real.exp (-t^2) = Real.sqrt Real.pi / 2 := by
    have := integral_gaussian_Ioi 1
    simp only [neg_mul, one_mul, div_one] at this
    exact this
  rw [h2] at h1
  have h3 := h1.const_mul (2 / Real.sqrt Real.pi)
  have h4 : (2 / Real.sqrt Real.pi) * (Real.sqrt Real.pi / 2) = 1 := by
    have hπ : Real.sqrt Real.pi ≠ 0 :=
      ne_of_gt (Real.sqrt_pos.mpr Real.pi_pos)
    field_simp
  have : erf = fun x => (2 / Real.sqrt Real.pi) * ∫ t in (0:ℝ)..x, Real.exp (-t^2) :=
    rfl
  rw [this]
  rw [h4] at h3
  exact h3

/-- Antiderivative of the shifted Gaussian. -/
lemma gaussian_shifted_hasDerivAt (m σ : ℝ) (hσ : 0 < σ) (s : ℝ) :
    HasDerivAt (fun t => σ * Real.sqrt 2 * (Real.sqrt Real.pi / 2) *
        erf ((t - m) / (σ * Real.sqrt 2)))
      (Real.exp (-((s - m)^2) / (2 * σ^2))) s := by
  have hc : (0:ℝ) < σ * Real.sqrt 2 :=
    mul_pos hσ (Real.sqrt_pos.mpr (by norm_num))
  have hinner : HasDerivAt (fun t : ℝ => (t - m) / (σ * Real.sqrt 2))
      (1 / (σ * Real.sqrt 2)) s := by
    have h := ((hasDerivAt_id s).sub_const m).div_const (σ * Real.sqrt 2)
    simpa using h
  have houter := erf_hasDerivAt ((s - m) / (σ * Real.sqrt 2))
  have hcomp := (houter.comp s hinner).const_mul
    (σ * Real.sqrt 2 * (Real.sqrt Real.pi / 2))
  convert hcomp using 1
  have hsq : ((s - m) / (σ * Real.sqrt 2))^2 = (s - m)^2 / (2 * σ^2) := by
    rw [div_pow, mul_pow, Real.sq_sqrt (by norm_num : (0:ℝ) ≤ 2)]
    ring_nf
  rw [hsq]
  have hπ : Real.sqrt Real.pi ≠ 0 := ne_of_gt (Real.sqrt_pos.mpr Real.pi_pos)
  field_simp
  ring

lemma tendsto_gaussian_antideriv (m σ : ℝ) (hσ : 0 < σ) :
    Tendsto (fun t => σ * Real.sqrt 2 * (Real.sqrt Real.pi / 2) *
        erf ((t - m) / (σ * Real.sqrt 2))) atTop
      (𝓝 (σ * Real.sqrt 2 * (Real.sqrt Real.pi / 2))) := by
  have hc : (0:ℝ) < σ * Real.sqrt 2 :=
    mul_pos hσ (Real.sqrt_pos.mpr (by norm_num))
  have hinner : Tendsto (fun t : ℝ => (t - m) / (σ * Real.sqrt 2)) atTop atTop := by
    apply Tendsto.atTop_div_const hc
    simpa using tendsto_atTop_add_const_right atTop (-m) tendsto_id
  have := (tendsto_erf_atTop.comp hinner).const_mul
    (σ * Real.sqrt 2 * (Real.sqrt Real.pi / 2))
  simpa using this

lemma integral_Ioi_gaussian_shifted (m σ a : ℝ) (hσ : 0 < σ) :
    ∫ s in Ioi a, Real.exp (-((s - m)^2) / (2 * σ^2)) =
      σ * Real.sqrt 2 * (Real.sqrt Real.pi / 2) * erfc ((a - m) / (σ * Real.sqrt 2)) := by
  have hderiv : ∀ x ∈ Ici a, HasDerivAt (fun t => σ * Real.sqrt 2 *
      (Real.sqrt Real.pi / 2) * erf ((t - m) / (σ * Real.sqrt 2)))
      (Real.exp (-((x - m)^2) / (2 * σ^2))) x :=
    fun x _ => gaussian_shifted_hasDerivAt m σ hσ x
  have hnonneg : ∀ x ∈ Ioi a, 0 ≤ Real.exp (-((x - m)^2) / (2 * σ^2)) :=
    fun x _ => (Real.exp_pos _).le
  have hint : IntegrableOn (fun s => Real.exp (-((s - m)^2) / (2 * σ^2))) (Ioi a) :=
    integrableOn_Ioi_deriv_of_nonneg' hderiv hnonneg (tendsto_gaussian_antideriv m σ hσ)
  have h := integral_Ioi_of_hasDerivAt_of_tendsto' hderiv hint
    (tendsto_gaussian_antideriv m σ hσ)
  rw [h]
  simp only [erfc]
  ring

lemma integrableOn_gaussian_shifted (m σ a : ℝ) (hσ : 0 < σ) :
    IntegrableOn (fun s => Real.exp (-((s - m)^2) / (2 * σ^2))) (Ioi a) := by
  have hderiv : ∀ x ∈ Ici a, HasDerivAt (fun t => σ * Real.sqrt 2 *
      (Real.sqrt Real.pi / 2) * erf ((t - m) / (σ * Real.sqrt 2)))
      (Real.exp (-((x - m)^2) / (2 * σ^2))) x :=
    fun x _ => gaussian_shifted_hasDerivAt m σ hσ x
  exact integrableOn_Ioi_deriv_of_nonneg' hderiv
    (fun x _ => (Real.exp_pos _).le) (tendsto_gaussian_antideriv m σ hσ)

lemma sqrt_two_mul_self : Real.sqrt 2 * Real.sqrt 2 = 2 :=
  Real.mul_self_sqrt (by norm_num)

lemma sqrt_two_ne_zero : Real.sqrt 2 ≠ 0 :=
  ne_of_gt (Real.sqrt_pos.mpr (by norm_num))

/-- The half-line integral of `exp(-k·s)` against the Gaussian resolution
kernel, in the variables used by `Functions.h`. -/
lemma integral_exp_mul_gaussianPdf (k time mu σ : ℝ) (hσ : 0 < σ) :
    ∫ s in Ioi (0:ℝ), Real.exp (-(k*s)) * gaussianPdf mu σ (time - s) =
      (1/2) * Real.exp ((k*σ/Real.sqrt 2)^2 -
          2*(k*σ/Real.sqrt 2)*((time-mu)/(σ*Real.sqrt 2))) *
        erfc (k*σ/Real.sqrt 2 - (time-mu)/(σ*Real.sqrt 2)) := by
  have hσ' : σ ≠ 0 := ne_of_gt hσ
  set c : ℝ := time - mu with hc
  set z : ℝ := k*σ/Real.sqrt 2 with hzdef
  set x : ℝ := c/(σ*Real.sqrt 2) with hxdef
  set m : ℝ := c - k*σ^2 with hm
  have hz2 : z^2 = k^2*σ^2/2 := by
    rw [hzdef, div_pow, mul_pow, Real.sq_sqrt (by norm_num : (0:ℝ) ≤ 2)]
  have hzx : z*x = k*c/2 := by
    rw [hzdef, hxdef, div_mul_div_comm]
    have hd : Real.sqrt 2 * (σ * Real.sqrt 2) = 2 * σ := by
      have h : Real.sqrt 2 * (σ * Real.sqrt 2) = σ * (Real.sqrt 2 * Real.sqrt 2) := by
        ring
      rw [h, sqrt_two_mul_self]
      ring
    rw [hd]
    field_simp
    ring
  have hE : z^2 - 2*(z*x) = k^2*σ^2/2 - k*c := by rw [hz2, hzx]; ring
  have hpt : ∀ s : ℝ, Real.exp (-(k*s)) * gaussianPdf mu σ (time - s) =
      (Real.exp (z^2 - 2*z*x) / (σ * Real.sqrt (2*Real.pi))) *
        Real.exp (-((s - m)^2) / (2*σ^2)) := by
    intro s
    have hexp : -(k*s) + -((time - s - mu)^2) / (2*σ^2) =
        (z^2 - 2*z*x) + -((s - m)^2) / (2*σ^2) := by
      have h1 : z^2 - 2*z*x = k^2*σ^2/2 - k*c := by rw [← hE]; ring
      rw [h1, hm, hc]
      field_simp
      ring
    simp only [gaussianPdf]
    rw [mul_left_comm, ← Real.exp_add, hexp, Real.exp_add]
    ring
  rw [MeasureTheory.integral_congr_ae (ae_of_all _ hpt)]
  rw [MeasureTheory.integral_mul_left]
  rw [integral_Ioi_gaussian_shifted m σ 0 hσ]
  have hzx2 : (0 - m)/(σ*Real.sqrt 2) = z - x := by
    rw [hm, hzdef, hxdef]
    field_simp
    ring
  rw [hzx2]
  have hsplit : Real.sqrt (2*Real.pi) = Real.sqrt 2 * Real.sqrt Real.pi :=
    Real.sqrt_mul (by norm_num) _
  rw [hsplit]
  have hπ : Real.sqrt Real.pi ≠ 0 := ne_of_gt (Real.sqrt_pos.mpr Real.pi_pos)
  field_simp
  ring_nf

lemma integrableOn_exp_mul_gaussianPdf (k time mu σ : ℝ) (hσ : 0 < σ) :
    IntegrableOn (fun s => Real.exp (-(k*s)) * gaussianPdf mu σ (time - s)) (Ioi 0) := by
  have hσ' : σ ≠ 0 := ne_of_gt hσ
  set c : ℝ := time - mu with hc
  set z : ℝ := k*σ/Real.sqrt 2 with hzdef
  set x : ℝ := c/(σ*Real.sqrt 2) with hxdef
  set m : ℝ := c - k*σ^2 with hm
  have hz2 : z^2 = k^2*σ^2/2 := by
    rw [hzdef, div_pow, mul_pow, Real.sq_sqrt (by norm_num : (0:ℝ) ≤ 2)]
  have hzx : z*x = k*c/2 := by
    rw [hzdef, hxdef, div_mul_div_comm]
    have hd : Real.sqrt 2 * (σ * Real.sqrt 2) = 2 * σ := by
      have h : Real.sqrt 2 * (σ * Real.sqrt 2) = σ * (Real.sqrt 2 * Real.sqrt 2) := by
        ring
      rw [h, sqrt_two_mul_self]
      ring
    rw [hd]
    field_simp
    ring
  have hE : z^2 - 2*(z*x) = k^2*σ^2/2 - k*c := by rw [hz2, hzx]; ring
  have hpt : ∀ s : ℝ, Real.exp (-(k*s)) * gaussianPdf mu σ (time - s) =
      (Real.exp (z^2 - 2*z*x) / (σ * Real.sqrt (2*Real.pi))) *
        Real.exp (-((s - m)^2) / (2*σ^2)) := by
    intro s
    have hexp : -(k*s) + -((time - s - mu)^2) / (2*σ^2) =
        (z^2 - 2*z*x) + -((s - m)^2) / (2*σ^2) := by
      have h1 : z^2 - 2*z*x = k^2*σ^2/2 - k*c := by rw [← hE]; ring
      rw [h1, hm, hc]
      field_simp
      ring
    simp only [gaussianPdf]
    rw [mul_left_comm, ← Real.exp_add, hexp, Real.exp_add]
    ring
  exact ((integrableOn_gaussian_shifted m σ 0 hσ).const_mul _).congr
    (ae_of_all _ fun s => (hpt s).symm)




/-- Claim C5: for every `time`, `a`, `b`, `mu`, `sigma > 0` and `tag`,
`Convoluted_exp_sinhcosh` returns `0.25·(f(z1)+f(z2))` for `tag > 0` and
`0.25·(f(z1)-f(z2))` for `tag < 0`, with `x = (time-mu)/(σ√2)`,
`z1 = (a-b)σ/√2`, `z2 = (a+b)σ/√2`, `f(z) = exp(z²-2zx)·erfc(z-x)`, and this
value is the Gaussian(μ,σ)-convolution of the decay law
`exp(-a·t)·cosh(b·t)` (resp. `sinh`) supported on positive times, evaluated
at `t = time`. -/
theorem convoluted_exp_sinhcosh_correct (time a b mu sigma : ℝ) (tag : ℤ)
    (hσ : 0 < sigma) :
    (0 < tag →
      Convoluted_exp_sinhcosh time a b mu sigma tag =
        0.25 * (Real.exp ((a-b)*sigma/sqrt2 * ((a-b)*sigma/sqrt2) -
              2 * ((a-b)*sigma/sqrt2) * ((time-mu)/(sigma*sqrt2))) *
            erfc ((a-b)*sigma/sqrt2 - (time-mu)/(sigma*sqrt2)) +
          Real.exp ((a+b)*sigma/sqrt2 * ((a+b)*sigma/sqrt2) -
              2 * ((a+b)*sigma/sqrt2) * ((time-mu)/(sigma*sqrt2))) *
            erfc ((a+b)*sigma/sqrt2 - (time-mu)/(sigma*sqrt2))) ∧
      gaussConv (fun s => Real.exp (-(a*s)) * Real.cosh (b*s)) time mu sigma =
        Convoluted_exp_sinhcosh time a b mu sigma tag) ∧
    (tag < 0 →
      Convoluted_exp_sinhcosh time a b mu sigma tag =
        0.25 * (Real.exp ((a-b)*sigma/sqrt2 * ((a-b)*sigma/sqrt2) -
              2 * ((a-b)*sigma/sqrt2) * ((time-mu)/(sigma*sqrt2))) *
            erfc ((a-b)*sigma/sqrt2 - (time-mu)/(sigma*sqrt2)) -
          Real.exp ((a+b)*sigma/sqrt2 * ((a+b)*sigma/sqrt2) -
              2 * ((a+b)*sigma/sqrt2) * ((time-mu)/(sigma*sqrt2))) *
            erfc ((a+b)*sigma/sqrt2 - (time-mu)/(sigma*sqrt2))) ∧
      gaussConv (fun s => Real.exp (-(a*s)) * Real.sinh (b*s)) time mu sigma =
        Convoluted_exp_sinhcosh time a b mu sigma tag) := by
  have h1 := integral_exp_mul_gaussianPdf (a-b) time mu sigma hσ
  have h2 := integral_exp_mul_gaussianPdf (a+b) time mu sigma hσ
  have hi1 := integrableOn_exp_mul_gaussianPdf (a-b) time mu sigma hσ
  have hi2 := integrableOn_exp_mul_gaussianPdf (a+b) time mu sigma hσ
  constructor
  · intro htag
    have hcode : Convoluted_exp_sinhcosh time a b mu sigma tag =
        0.25 * (Real.exp ((a-b)*sigma/sqrt2 * ((a-b)*sigma/sqrt2) -
              2 * ((a-b)*sigma/sqrt2) * ((time-mu)/(sigma*sqrt2))) *
            erfc ((a-b)*sigma/sqrt2 - (time-mu)/(sigma*sqrt2)) +
          Real.exp ((a+b)*sigma/sqrt2 * ((a+b)*sigma/sqrt2) -
              2 * ((a+b)*sigma/sqrt2) * ((time-mu)/(sigma*sqrt2))) *
            erfc ((a+b)*sigma/sqrt2 - (time-mu)/(sigma*sqrt2))) := by
      simp only [Convoluted_exp_sinhcosh]
      rw [if_pos htag]
    refine ⟨hcode, ?_⟩
    rw [hcode]
    have hcosh : ∀ s : ℝ,
        (fun s => Real.exp (-(a*s)) * Real.cosh (b*s)) s * gaussianPdf mu sigma (time - s) =
          (1/2) * (Real.exp (-((a-b)*s)) * gaussianPdf mu sigma (time - s)) +
          (1/2) * (Real.exp (-((a+b)*s)) * gaussianPdf mu sigma (time - s)) := by
      intro s
      have e1 : Real.exp (-(a*s)) * Real.exp (b*s) = Real.exp (-((a-b)*s)) := by
        rw [← Real.exp_add]
        ring_nf
      have e2 : Real.exp (-(a*s)) * Real.exp (-(b*s)) = Real.exp (-((a+b)*s)) := by
        rw [← Real.exp_add]
        ring_nf
      simp only [Real.cosh_eq]
      rw [← e1, ← e2]
      ring
    simp only [gaussConv]
    rw [MeasureTheory.integral_congr_ae (ae_of_all _ hcosh)]
    rw [MeasureTheory.integral_add (hi1.const_mul _) (hi2.const_mul _),
      MeasureTheory.integral_mul_left, MeasureTheory.integral_mul_left, h1, h2]
    simp only [sqrt2]
    ring_nf
  · intro htag
    have hcode : Convoluted_exp_sinhcosh time a b mu sigma tag =
        0.25 * (Real.exp ((a-b)*sigma/sqrt2 * ((a-b)*sigma/sqrt2) -
              2 * ((a-b)*sigma/sqrt2) * ((time-mu)/(sigma*sqrt2))) *
            erfc ((a-b)*sigma/sqrt2 - (time-mu)/(sigma*sqrt2)) -
          Real.exp ((a+b)*sigma/sqrt2 * ((a+b)*sigma/sqrt2) -
              2 * ((a+b)*sigma/sqrt2) * ((time-mu)/(sigma*sqrt2))) *
            erfc ((a+b)*sigma/sqrt2 - (time-mu)/(sigma*sqrt2))) := by
      simp only [Convoluted_exp_sinhcosh]
      rw [if_neg (by omega : ¬ tag > 0), if_pos htag]
    refine ⟨hcode, ?_⟩
    rw [hcode]
    have hsinh : ∀ s : ℝ,
        (fun s => Real.exp (-(a*s)) * Real.sinh (b*s)) s * gaussianPdf mu sigma (time - s) =
          (1/2) * (Real.exp (-((a-b)*s)) * gaussianPdf mu sigma (time - s)) -
          (1/2) * (Real.exp (-((a+b)*s)) * gaussianPdf mu sigma (time - s)) := by
      intro s
      have e1 : Real.exp (-(a*s)) * Real.exp (b*s) = Real.exp (-((a-b)*s)) := by
        rw [← Real.exp_add]
        ring_nf
      have e2 : Real.exp (-(a*s)) * Real.exp (-(b*s)) = Real.exp (-((a+b)*s)) := by
        rw [← Real.exp_add]
        ring_nf
      simp only [Real.sinh_eq]
      rw [← e1, ← e2]
      ring
    simp only [gaussConv]
    rw [MeasureTheory.integral_congr_ae (ae_of_all _ hsinh)]
    rw [MeasureTheory.integral_sub (hi1.const_mul _) (hi2.const_mul _),
      MeasureTheory.integral_mul_left, MeasureTheory.integral_mul_left, h1, h2]
    simp only [sqrt2]
    ring_nf

/-- Witness for claim C5 at `time = 0`, `a = b = mu = 0`, `sigma = 1`,
`tag = 1`: the convolution of the constant decay law equals the code
value. -/
theorem convoluted_exp_sinhcosh_correct_witness :
    (0 : ℝ) < 1 ∧ (0 : ℤ) < 1 ∧
    gaussConv (fun s => Real.exp (-(0*s)) * Real.cosh (0*s)) 0 0 1 =
      Convoluted_exp_sinhcosh 0 0 0 0 1 1 :=
  ⟨by norm_num, by norm_num,
    ((convoluted_exp_sinhcosh_correct 0 0 0 0 1 1 (by norm_num)).1 (by norm_num)).2⟩

end Medusa
